import Mathlib

/-
Verification of the gtml template manager (src/constants.go, src/errors.go)
against its natural-language specification.

The Go code is shallowly embedded: the file-system trees handed to the
manager become lists of file entries, the html/template engine's template
sets become association lists from defined template names to the origin
(source id, file path) of the definition currently holding the name, and
the HTTP response sink becomes a trace of sink events.  The template
engine itself (parsing template syntax, executing a template against
data) is external per the spec, so parsing a file is characterised only
by the set of names it defines and whether it parses, and execution is an
oracle parameter of `render`.
-/

namespace Gtml

/-! ### Character-list string helpers

Faithful models of the Go path functions used by the manager
(`filepath.Ext`, `strings.TrimSuffix`, `strings.HasPrefix`, glob
matching of `layouts/*<ext>`), implemented by structural recursion on
character lists so that all claims evaluate by kernel reduction. -/

/-- Drops `pre` from the front of `l`; `none` if `pre` is not a prefix. -/
def dropPrefixCh : List Char → List Char → Option (List Char)
  | [], s => some s
  | _, [] => none
  | p :: ps, c :: cs => if p = c then dropPrefixCh ps cs else none

/-- Whether `pre` is a prefix of `s` (Go `strings.HasPrefix`). -/
def strHasPrefix (pre s : String) : Bool :=
  (dropPrefixCh pre.data s.data).isSome

/-- Whether `suf` is a suffix of `l`. -/
def chIsSuffix (suf l : List Char) : Bool :=
  (dropPrefixCh suf.reverse l.reverse).isSome

/-- Go `strings.TrimSuffix s suffix`: removes the trailing `suffix` when
present, otherwise returns `s` unchanged. -/
def trimSuffix (s suffix : String) : String :=
  if chIsSuffix suffix.data s.data then
    ⟨s.data.take (s.data.length - suffix.data.length)⟩
  else s

/-- Scan of a reversed path for Go `filepath.Ext`: chars after the last
dot of the last path element; stops at a path separator. -/
def extLoop : List Char → List Char → List Char
  | [], _ => []
  | c :: rest, acc =>
    if c = '/' then []
    else if c = '.' then c :: acc
    else extLoop rest (c :: acc)

/-- Go `filepath.Ext`: the suffix of the final path element beginning at
its final dot, or `""` when the final element has no dot. -/
def goExt (s : String) : String := ⟨extLoop s.data.reverse []⟩

/-- Final path element (used for html/template naming templates by the
base filename of the parsed file). -/
def lastComp : List Char → List Char → List Char
  | [], acc => acc.reverse
  | c :: rest, acc => if c = '/' then lastComp rest [] else lastComp rest (c :: acc)

/-- Base filename of a path. -/
def baseName (s : String) : String := ⟨lastComp s.data []⟩

/-- Base filename with the extension stripped (the `<filename-without-extension>`
of the layout naming convention `layout:<filename-without-extension>`). -/
def baseStem (s : String) : String := trimSuffix (baseName s) (goExt s)

/-- Go `strings.Join parts sep`. -/
def joinStrings (sep : String) : List String → String
  | [] => ""
  | [s] => s
  | s :: rest => s ++ sep ++ joinStrings sep rest

/-! ### Directory-name constants (src/constants.go) -/

/-- Directory for layout templates. -/
def LayoutsDir : String := "layouts"

/-- Directory for partial templates. -/
def PartialsDir : String := "partials"

/-- Directory for view templates. -/
def ViewsDir : String := "views"

/-- Directory for system templates. -/
def SystemDir : String := "system"

/-- Default base layout template. -/
def DefaultBaseLayout : String := "base"

/-! ### File systems and template sets -/

/-- One file of a source tree as the template engine sees it: its
slash-separated path within the source, the template names parsing it
defines (html/template names the file-level template by base filename;
define-blocks inside the file add further names — the engine is external,
so the set of defined names is data of the file), and whether it parses. -/
structure FileEntry where
  path : String
  defines : List String
  parseOk : Bool
deriving DecidableEq, Repr

/-- A source file system: the files it contains (`fs.WalkDir` visits them
in this order; directory entries carry no information beyond the files
under them, so they are not materialised). -/
abbrev SourceFS := List FileEntry

/-- A parsed template set (Go `*template.Template` with its associated
templates): for every defined name, the (source id, file path) origin of
the definition currently holding that name.  Re-parsing a name replaces
the earlier definition, as in text/template. -/
abbrev TemplateSet := List (String × (String × String))

/-- The manager's catalog: page name to composed template set
(`tm.templates` in the Go code). -/
abbrev Catalog := List (String × TemplateSet)

/-- Go map assignment `m[k] = v` on an association list: replaces the
binding when the key is present, otherwise appends it. -/
def setKey {α : Type} : List (String × α) → String → α → List (String × α)
  | [], k, v => [(k, v)]
  | (k', v') :: rest, k, v =>
    if k' = k then (k, v) :: rest else (k', v') :: setKey rest k v

/-- Go map lookup `m[k]`. -/
def lookupKey {α : Type} : List (String × α) → String → Option α
  | [], _ => none
  | (k', v) :: rest, k => if k' = k then some v else lookupKey rest k

/-- The keys of an association list (template names of a template set,
page names of a catalog). -/
def keysOf {α : Type} (m : List (String × α)) : List String := m.map Prod.fst

/-- Whether `path` lies strictly under directory `dir` (the paths
`fs.WalkDir dir` visits below the root entry). -/
def underDir (dir path : String) : Bool := strHasPrefix (dir ++ "/") path

/-- Model of `fsys.Open(dir)` succeeding for a directory: the source
contains a file under `dir`.  (An empty directory is indistinguishable
in effect: the subsequent walk adds nothing.) -/
def hasDirB (fsys : SourceFS) (dir : String) : Bool :=
  fsys.any (fun f => underDir dir f.path)

/-- The files `fs.WalkDir fsys dir` visits (directory entries are skipped
by the `!dir.IsDir()` checks at both call sites). -/
def walkFiles (fsys : SourceFS) (dir : String) : List FileEntry :=
  fsys.filter (fun f => underDir dir f.path)

/-- Whether `path` matches the glob pattern `layouts/*<ext>`: directly
under `layouts/` (`*` does not cross a separator) with the remainder
ending in the configured extension. -/
def isLayoutGlobMatch (ext path : String) : Bool :=
  match dropPrefixCh (LayoutsDir ++ "/").data path.data with
  | none => false
  | some rest => !rest.contains '/' && chIsSuffix ext.data rest

/-! ### Parsing files into a template set -/

/-- Effect of a successful `ParseFS` of one file on a template set: each
name the file defines comes to refer to this file (replacing any earlier
definition of the name). -/
def applyDefines (ts : TemplateSet) (src : String) (f : FileEntry) : TemplateSet :=
  f.defines.foldl (fun acc n => setKey acc n (src, f.path)) ts

/-- Model of `ParseFS` of one file: fails with a parse error when the file does
not parse, otherwise installs its definitions. -/
def parseFileInto (ts : TemplateSet) (src : String) (f : FileEntry) :
    Except String TemplateSet :=
  if f.parseOk then Except.ok (applyDefines ts src f)
  else Except.error ("template parse error: " ++ f.path)

/-- Model of `ParseFS` of several files in order, aborting at the first failure. -/
def parseFilesInto (src : String) : List FileEntry → TemplateSet → Except String TemplateSet
  | [], ts => Except.ok ts
  | f :: rest, ts =>
    match parseFileInto ts src f with
    | Except.error e => Except.error e
    | Except.ok ts' => parseFilesInto src rest ts'

/-- Model of `commonTemplates.ParseFS(fsys, "layouts/*"+ext)`: glob the layouts
directory; `ParseFS` errors when the pattern matches no files, otherwise
parses every match. -/
def parseGlobLayouts (ext src : String) (fsys : SourceFS) (ts : TemplateSet) :
    Except String TemplateSet :=
  match fsys.filter (fun f => isLayoutGlobMatch ext f.path) with
  | [] => Except.error ("template: pattern matches no files: layouts/*" ++ ext)
  | f :: rest => parseFilesInto src (f :: rest) ts

/-! ### The template manager (src/constants.go) -/

/-- The TemplateManager state.  The template function map and logger are
not modelled: the rendering engine is external per the spec, so the
function map never influences any embedded observable, and the logger is
only written to by the commented-out `printTemplateNames`. -/
structure TemplateManager where
  baseLayout : String
  systemLayout : String
  extension : String
  fileSystemMap : List (String × SourceFS)
  templates : Catalog
deriving DecidableEq, Repr

/-- Body of `loadLayoutsAndPartials` for one source: parse the
`layouts/*<ext>` glob into the common set, then (when a partials
directory exists) walk `partials/` and parse each file with the
configured extension. -/
def loadSourceCommon (ext src : String) (fsys : SourceFS) (ts : TemplateSet) :
    Except String TemplateSet :=
  match parseGlobLayouts ext src fsys ts with
  | Except.error e => Except.error e
  | Except.ok ts1 =>
    if hasDirB fsys PartialsDir then
      parseFilesInto src
        ((walkFiles fsys PartialsDir).filter (fun f => goExt f.path = ext)) ts1
    else Except.ok ts1

/-- Fold of `loadSourceCommon` over all sources, aborting at the first
error. -/
def loadSources (ext : String) : List (String × SourceFS) → TemplateSet →
    Except String TemplateSet
  | [], ts => Except.ok ts
  | (src, fsys) :: rest, ts =>
    match loadSourceCommon ext src fsys ts with
    | Except.error e => Except.error e
    | Except.ok ts' => loadSources ext rest ts'

/-- The method `TemplateManager.loadLayoutsAndPartials`: one shared common template
set accumulating every source's layouts and partials, starting empty. -/
def loadLayoutsAndPartials (tm : TemplateManager) : Except String TemplateSet :=
  loadSources tm.extension tm.fileSystemMap []

/-- The page stem of a views file: `strings.TrimSuffix(relPath,
filepath.Ext(relPath))`, where `relPath = filepath.Rel("", path)`.  For
the slash-clean relative paths `fs.WalkDir` produces, `filepath.Rel("",
p)` returns `filepath.Clean(p) = p` itself (the empty base cleans to `"."`
and contributes no elements), so the views directory prefix is retained. -/
def pageStem (path : String) : String := trimSuffix path (goExt path)

/-- The catalog key of a views file: the stem, prefixed `fsID ++ ":"` for
every source other than the sentinels `""` and `"-"`. -/
def pageName (fsID path : String) : String :=
  if fsID ≠ "" ∧ fsID ≠ "-" then fsID ++ ":" ++ pageStem path else pageStem path

/-- The body of `Init`'s `processDirectory` closure folded over the files
of one source's views walk: for each non-directory entry whose
`filepath.Ext` equals the configured extension, clone the common set
(value copy in the embedding), parse the page file into the clone, and
assign it to the catalog under the page name.  An error aborts the walk,
leaving the entries already assigned in place. -/
def initViews (ext : String) (common : TemplateSet) (src : String) :
    List FileEntry → Catalog → Catalog × Option String
  | [], cat => (cat, none)
  | f :: rest, cat =>
    if goExt f.path = ext then
      match parseFileInto common src f with
      | Except.error e => (cat, some e)
      | Except.ok tmpl =>
        initViews ext common src rest (setKey cat (pageName src f.path) tmpl)
    else initViews ext common src rest cat

/-- The per-source loop of `Init`: when the source has a views directory, walk
it; an error aborts the whole loop. -/
def initSources (ext : String) (common : TemplateSet) :
    List (String × SourceFS) → Catalog → Catalog × Option String
  | [], cat => (cat, none)
  | (src, fsys) :: rest, cat =>
    if hasDirB fsys ViewsDir then
      let res := initViews ext common src (walkFiles fsys ViewsDir) cat
      match res.2 with
      | some e => (res.1, some e)
      | none => initSources ext common rest res.1
    else initSources ext common rest cat

/-- The method `TemplateManager.Init`: reset the template cache to empty, load
layouts and partials into the shared common set, then process every
source's views directory, assigning page entries into the manager's
catalog as the walk progresses.  Returns the manager as left by the run
together with the error surfaced to the caller, if any. -/
def Init (tm : TemplateManager) : TemplateManager × Option String :=
  let tm0 : TemplateManager := { tm with templates := [] }
  match loadLayoutsAndPartials tm0 with
  | Except.error e => (tm0, some ("error loading partials. " ++ e))
  | Except.ok common =>
    let res := initSources tm0.extension common tm0.fileSystemMap []
    ({ tm0 with templates := res.1 }, res.2)

/-! ### The renderer (src/constants.go `render`, `handleError`, `viewsPath`) -/

/-- One observable effect on the HTTP response sink. -/
inductive SinkEvent where
  | setHeader (k v : String)
  | writeHeader (code : Nat)
  | write (body : String)
  | bodyCopyFailed
deriving DecidableEq, Repr

/-- Model of Go `http.Error(w, msg, 500)`: it sets the plain-text content
type headers, commits status 500, and writes the message followed by a
newline. -/
def httpErrorTrace (msg : String) : List SinkEvent :=
  [ SinkEvent.setHeader "Content-Type" "text/plain; charset=utf-8",
    SinkEvent.setHeader "X-Content-Type-Options" "nosniff",
    SinkEvent.writeHeader 500,
    SinkEvent.write (msg ++ "\n") ]

/-- The method `TemplateManager.viewsPath`: `"views" ++ "/" ++ strings.Join(parts, "/")`. -/
def viewsPath (parts : List String) : String :=
  ViewsDir ++ "/" ++ joinStrings "/" parts

/-- Modelled from the spec: the Response value consumed by `render` (its
Go definition is not under src/; only render's calls to its accessors
are).  Per spec section 3 it is a builder-populated value carrying the
target page path, layout name, status code, header mapping, and an opaque
bound data value; `TemplatePath`, `TemplateLayout`, `StatusCode`,
`Headers` and `ViewData(r).Data()` are read back as plain field
accesses.  The bound data (request included) is opaque to this layer and
is modelled as a number fed to the execution oracle. -/
structure Response where
  templatePath : String
  templateLayout : String
  statusCode : Nat
  headers : List (String × String)
  data : Nat
deriving DecidableEq, Repr

/-- The entry point name `render` executes: `fmt.Sprintf("layout:%s",
resp.TemplateLayout())`. -/
def execTargetName (resp : Response) : String := "layout:" ++ resp.templateLayout

/-- The external template-execution capability: given the page's template
set, the entry point name and the bound data, produce the rendered output
or an execution error. -/
abbrev ExecOracle := TemplateSet → String → Nat → Except String String

/-- The method `TemplateManager.render`: look the page up in the catalog (not-found
errors go through `handleError`, i.e. `http.Error` with the wrapped
message and status 500); execute the layout entry point into a buffer; on
execution failure emit the error response (the system-error-page branch
and the `handleError` branch write the same error response, the guard
existing to avoid re-entering template rendering); on success set the
response's headers, commit its status code, and copy the buffer to the
sink.  `writeRes` is the outcome of the final `buf.WriteTo(w)` (`none` =
success, `some err` = I/O failure), after which the code calls
`http.Error` with the write error. -/
def render (exec : ExecOracle) (writeRes : Option String)
    (tm : TemplateManager) (resp : Response) : List SinkEvent :=
  match lookupKey tm.templates resp.templatePath with
  | none => httpErrorTrace ("template not found" ++ ": " ++ resp.templatePath)
  | some tmpl =>
    match exec tmpl (execTargetName resp) resp.data with
    | Except.error e =>
      if resp.templatePath = viewsPath [SystemDir, "server-error"] then
        httpErrorTrace ("error executing template: " ++ e)
      else
        httpErrorTrace ("error executing template: " ++ e)
    | Except.ok body =>
      (resp.headers.map fun kv => SinkEvent.setHeader kv.1 kv.2)
        ++ [SinkEvent.writeHeader resp.statusCode]
        ++ (match writeRes with
            | none => [SinkEvent.write body]
            | some werr => SinkEvent.bodyCopyFailed :: httpErrorTrace werr)

/-- The events the sink receives after the failed final body copy (empty
when no copy failure occurs in the trace). -/
def afterCopyFail : List SinkEvent → List SinkEvent
  | [] => []
  | SinkEvent.bodyCopyFailed :: rest => rest
  | _ :: rest => afterCopyFail rest

/-! ### The constructor (src/constants.go `NewTemplateManager`) -/

/-- Options for `NewTemplateManager`.  `Funcs` and `Logger` are omitted
for the reason given at `TemplateManager`. -/
structure TemplateManagerOptions where
  baseLayout : String
  systemLayout : String
  extension : String
  sources : List (String × SourceFS)
deriving DecidableEq, Repr

/-- Go byte indexing `s[i]`, made total by returning `none` exactly when
the index is out of range (the case in which the Go expression panics). -/
def stringIndex (s : String) (i : Nat) : Option Char := s.data.get? i

/-- The constructor `NewTemplateManager`: default the extension to ".html" when empty,
prepend a dot when `opts.Extension[0]` is not a dot (the indexing is
modelled by `stringIndex`, `none` standing for the out-of-range panic),
default the base layout to "base" and the system layout to the base
layout, and return a manager with a fresh empty template map. -/
def NewTemplateManager (opts : TemplateManagerOptions) : Option TemplateManager :=
  let ext0 := if opts.extension = "" then ".html" else opts.extension
  match stringIndex ext0 0 with
  | none => none
  | some c =>
    let ext1 := if c ≠ '.' then "." ++ ext0 else ext0
    let base := if opts.baseLayout = "" then DefaultBaseLayout else opts.baseLayout
    let system := if opts.systemLayout = "" then base else opts.systemLayout
    some { baseLayout := base, systemLayout := system, extension := ext1,
           fileSystemMap := opts.sources, templates := [] }

/-! ### Concrete fixtures

Small source trees and responses used to evaluate the claims at concrete
inputs. -/

/-- Root-source layout file defining the conventional `layout:base`. -/
def layoutBaseFile : FileEntry := ⟨"layouts/base.ext", ["layout:base"], true⟩

/-- Root-source page file `views/home.ext`. -/
def homeFile : FileEntry := ⟨"views/home.ext", ["home.ext"], true⟩

/-- Root source of the single-page scenario: `layouts/base.ext` and
`views/home.ext`. -/
def fsC1 : SourceFS := [layoutBaseFile, homeFile]

/-- Manager over the single-page root source. -/
def tmC1 : TemplateManager :=
  { baseLayout := "base", systemLayout := "base", extension := ".ext",
    fileSystemMap := [("-", fsC1)], templates := [] }

/-- Source whose second page file fails to parse. -/
def fsC2 : SourceFS :=
  [layoutBaseFile, ⟨"views/a.ext", ["a.ext"], true⟩, ⟨"views/b.ext", ["b.ext"], false⟩]

/-- Manager whose build fails at the second page. -/
def tmC2 : TemplateManager :=
  { baseLayout := "base", systemLayout := "base", extension := ".ext",
    fileSystemMap := [("-", fsC2)], templates := [] }

/-- Partial file of the three-file scenario. -/
def navFile : FileEntry := ⟨"partials/nav.ext", ["nav.ext"], true⟩

/-- Source with a layout, a partial, and a page. -/
def fsC3 : SourceFS := [layoutBaseFile, navFile, homeFile]

/-- Manager over the layout/partial/page source. -/
def tmC3 : TemplateManager :=
  { baseLayout := "base", systemLayout := "base", extension := ".ext",
    fileSystemMap := [("-", fsC3)], templates := [] }

/-- The common template set `loadLayoutsAndPartials` builds for `tmC3`. -/
def commonC3 : TemplateSet :=
  [("layout:base", ("-", "layouts/base.ext")), ("nav.ext", ("-", "partials/nav.ext"))]

/-- Root source containing the file `views/a:views/x.ext` (a colon is an
ordinary character in `io/fs` names). -/
def fsRootColl : SourceFS :=
  [layoutBaseFile, ⟨"views/a:views/x.ext", ["x.ext"], true⟩]

/-- A source named `views/a` containing `views/x.ext`. -/
def fsSubColl : SourceFS := [layoutBaseFile, ⟨"views/x.ext", ["x.ext"], true⟩]

/-- Manager whose two sources derive the same page name for different
files. -/
def tmColl : TemplateManager :=
  { baseLayout := "base", systemLayout := "base", extension := ".ext",
    fileSystemMap := [("-", fsRootColl), ("views/a", fsSubColl)], templates := [] }

/-- Source with no layouts directory: its layouts glob matches nothing,
so loading the common set fails. -/
def fsNoLayouts : SourceFS := [homeFile]

/-- Manager whose `loadLayoutsAndPartials` fails. -/
def tmNoLayouts : TemplateManager :=
  { baseLayout := "base", systemLayout := "base", extension := ".ext",
    fileSystemMap := [("-", fsNoLayouts)], templates := [] }

/-- Manager with a one-entry catalog for exercising `render`. -/
def tmR : TemplateManager :=
  { baseLayout := "base", systemLayout := "base", extension := ".ext",
    fileSystemMap := [], templates := [("p", [])] }

/-- Manager whose catalog holds the designated system error page. -/
def tmSys : TemplateManager :=
  { baseLayout := "base", systemLayout := "base", extension := ".ext",
    fileSystemMap := [], templates := [("views/system/server-error", [])] }

/-- Response targeting page `"p"` with one extra header. -/
def respR : Response := ⟨"p", "base", 200, [("X-Test", "1")], 0⟩

/-- Response targeting a page absent from `tmR`'s catalog. -/
def respNF : Response := ⟨"nope", "base", 200, [], 0⟩

/-- Response targeting the designated system error page. -/
def respSys : Response := ⟨"views/system/server-error", "base", 200, [], 0⟩

/-- Response with the base layout selected. -/
def respBase : Response := ⟨"views/home", "base", 200, [], 0⟩

/-- Execution oracle that always succeeds with a fixed body. -/
def execOk : ExecOracle := fun _ _ _ => Except.ok "BODY"

/-- Execution oracle that always fails. -/
def execBad : ExecOracle := fun _ _ _ => Except.error "boom"

/-! ### Association-list lemmas -/

/-- Assigning a key makes it look up to the assigned value. -/
theorem lookupKey_setKey_self {α : Type} (m : List (String × α)) (k : String) (v : α) :
    lookupKey (setKey m k v) k = some v := by
  induction m with
  | nil => simp [setKey, lookupKey]
  | cons p rest ih =>
    by_cases h : p.1 = k
    · simp [setKey, lookupKey, h]
    · simpa [setKey, lookupKey, h] using ih

/-- Assigning a key does not change the lookup of other keys. -/
theorem lookupKey_setKey_ne {α : Type} (m : List (String × α)) (k k' : String) (v : α)
    (h : k' ≠ k) : lookupKey (setKey m k v) k' = lookupKey m k' := by
  induction m with
  | nil => simp [setKey, lookupKey, Ne.symm h]
  | cons p rest ih =>
    by_cases hp : p.1 = k
    · subst hp
      simp [setKey, lookupKey, Ne.symm h]
    · simp only [setKey, hp, if_false, lookupKey]
      by_cases hk' : p.1 = k'
      · simp [hk']
      · simpa [hk'] using ih

/-- Membership in the keys after an assignment. -/
theorem mem_keysOf_setKey {α : Type} (m : List (String × α)) (k : String) (v : α)
    (n : String) : n ∈ keysOf (setKey m k v) ↔ n = k ∨ n ∈ keysOf m := by
  induction m with
  | nil => simp [setKey, keysOf]
  | cons p rest ih =>
    by_cases h : p.1 = k
    · subst h
      simp [setKey, keysOf]
    · simp only [setKey, h, if_false, keysOf, List.map_cons, List.mem_cons] at *
      tauto

/-- Assignment preserves distinctness of the keys. -/
theorem keysOf_setKey_nodup {α : Type} (m : List (String × α)) (k : String) (v : α)
    (h : (keysOf m).Nodup) : (keysOf (setKey m k v)).Nodup := by
  induction m with
  | nil => simp [setKey, keysOf]
  | cons p rest ih =>
    simp only [keysOf, List.map_cons, List.nodup_cons] at h
    by_cases hp : p.1 = k
    · subst hp
      simpa [setKey, keysOf, List.nodup_cons] using h
    · simp only [setKey, hp, if_false, keysOf, List.map_cons, List.nodup_cons]
      refine ⟨?_, ih h.2⟩
      intro hmem
      rcases (mem_keysOf_setKey rest k v p.1).mp hmem with he | hm
      · exact hp he
      · exact h.1 hm

/-- Every binding of the updated list is the new binding or an old one. -/
theorem mem_setKey_elim {α : Type} (m : List (String × α)) (k : String) (v : α)
    (e : String × α) (h : e ∈ setKey m k v) : e = (k, v) ∨ e ∈ m := by
  induction m with
  | nil => simpa [setKey] using h
  | cons p rest ih =>
    by_cases hp : p.1 = k
    · subst hp
      rcases (by simpa [setKey] using h : e = (p.1, v) ∨ e ∈ rest) with he | hm
      · exact Or.inl he
      · exact Or.inr (List.mem_cons_of_mem _ hm)
    · rcases (by simpa [setKey, hp] using h : e = p ∨ e ∈ setKey rest k v) with he | hm
      · exact Or.inr (he ▸ List.mem_cons_self _ _)
      · rcases ih hm with h1 | h2
        · exact Or.inl h1
        · exact Or.inr (List.mem_cons_of_mem _ h2)

/-- A key is present exactly when some binding carries it. -/
theorem lookupKey_isSome_iff {α : Type} (m : List (String × α)) (k : String) :
    (lookupKey m k).isSome = true ↔ k ∈ keysOf m := by
  induction m with
  | nil => simp [lookupKey, keysOf]
  | cons p rest ih =>
    by_cases h : p.1 = k
    · simp [lookupKey, keysOf, h]
    · simp only [lookupKey, h, if_false, keysOf, List.map_cons, List.mem_cons]
      rw [ih]
      simp [keysOf]
      tauto

/-- Names present after folding a list of definitions over `setKey`. -/
theorem mem_keysOf_foldl_setKey (defs : List String) (v : String × String) :
    ∀ (ts : TemplateSet) (n : String),
      n ∈ keysOf (defs.foldl (fun acc d => setKey acc d v) ts) ↔
        n ∈ defs ∨ n ∈ keysOf ts := by
  induction defs with
  | nil => simp
  | cons d ds ih =>
    intro ts n
    simp only [List.foldl_cons, List.mem_cons]
    rw [ih]
    rw [mem_keysOf_setKey]
    tauto

/-- Names present after parsing one file's definitions. -/
theorem mem_keysOf_applyDefines (ts : TemplateSet) (src : String) (f : FileEntry)
    (n : String) :
    n ∈ keysOf (applyDefines ts src f) ↔ n ∈ f.defines ∨ n ∈ keysOf ts :=
  mem_keysOf_foldl_setKey f.defines (src, f.path) ts n

/-! ### Loader lemmas -/

/-- Parsing a list of files never removes a defined name. -/
theorem parseFilesInto_mono (src : String) :
    ∀ (files : List FileEntry) (ts ts' : TemplateSet) (n : String),
      parseFilesInto src files ts = Except.ok ts' →
      n ∈ keysOf ts → n ∈ keysOf ts' := by
  intro files
  induction files with
  | nil =>
    intro ts ts' n h hn
    simp only [parseFilesInto] at h
    cases h
    exact hn
  | cons f rest ih =>
    intro ts ts' n h hn
    simp only [parseFilesInto, parseFileInto] at h
    cases hp : f.parseOk with
    | false => simp [hp] at h
    | true =>
      simp only [hp, if_true] at h
      exact ih _ _ n h ((mem_keysOf_applyDefines ts src f n).mpr (Or.inr hn))

/-- A successfully parsed file list contributes every define of every
file in it. -/
theorem parseFilesInto_adds (src : String) :
    ∀ (files : List FileEntry) (ts ts' : TemplateSet) (f : FileEntry) (n : String),
      parseFilesInto src files ts = Except.ok ts' →
      f ∈ files → n ∈ f.defines → n ∈ keysOf ts' := by
  intro files
  induction files with
  | nil => intro ts ts' f n _ hf; cases hf
  | cons g rest ih =>
    intro ts ts' f n h hf hn
    simp only [parseFilesInto, parseFileInto] at h
    cases hp : g.parseOk with
    | false => simp [hp] at h
    | true =>
      simp only [hp, if_true] at h
      rcases List.mem_cons.mp hf with he | hm
      · subst he
        exact parseFilesInto_mono src rest _ _ n h
          ((mem_keysOf_applyDefines ts src f n).mpr (Or.inl hn))
      · exact ih _ _ f n h hm hn

/-- The layouts glob never removes a defined name. -/
theorem parseGlobLayouts_mono (ext src : String) (fsys : SourceFS)
    (ts ts' : TemplateSet) (n : String)
    (h : parseGlobLayouts ext src fsys ts = Except.ok ts')
    (hn : n ∈ keysOf ts) : n ∈ keysOf ts' := by
  simp only [parseGlobLayouts] at h
  cases hm : fsys.filter (fun f => isLayoutGlobMatch ext f.path) with
  | nil => rw [hm] at h; cases h
  | cons f rest =>
    rw [hm] at h
    exact parseFilesInto_mono src (f :: rest) ts ts' n h hn

/-- A successful layouts glob contributes every define of every matching
file. -/
theorem parseGlobLayouts_adds (ext src : String) (fsys : SourceFS)
    (ts ts' : TemplateSet) (f : FileEntry) (n : String)
    (h : parseGlobLayouts ext src fsys ts = Except.ok ts')
    (hf : f ∈ fsys) (hmatch : isLayoutGlobMatch ext f.path = true)
    (hn : n ∈ f.defines) : n ∈ keysOf ts' := by
  simp only [parseGlobLayouts] at h
  have hfm : f ∈ fsys.filter (fun g => isLayoutGlobMatch ext g.path) :=
    List.mem_filter.mpr ⟨hf, hmatch⟩
  cases hm : fsys.filter (fun g => isLayoutGlobMatch ext g.path) with
  | nil => rw [hm] at hfm; cases hfm
  | cons g rest =>
    rw [hm] at h
    rw [hm] at hfm
    exact parseFilesInto_adds src (g :: rest) ts ts' f n h hfm hn

/-- Loading one source's layouts and partials never removes a name. -/
theorem loadSourceCommon_mono (ext src : String) (fsys : SourceFS)
    (ts ts' : TemplateSet) (n : String)
    (h : loadSourceCommon ext src fsys ts = Except.ok ts')
    (hn : n ∈ keysOf ts) : n ∈ keysOf ts' := by
  simp only [loadSourceCommon] at h
  cases hg : parseGlobLayouts ext src fsys ts with
  | error e => rw [hg] at h; cases h
  | ok ts1 =>
    rw [hg] at h
    have h1 : n ∈ keysOf ts1 := parseGlobLayouts_mono ext src fsys ts ts1 n hg hn
    cases hd : hasDirB fsys PartialsDir with
    | false => simp only [hd, if_false] at h; cases h; exact h1
    | true =>
      simp only [hd, if_true] at h
      exact parseFilesInto_mono src _ ts1 ts' n h h1

/-- Loading one source contributes every define of each of its layout
files and each of its partial files with the configured extension. -/
theorem loadSourceCommon_adds (ext src : String) (fsys : SourceFS)
    (ts ts' : TemplateSet) (f : FileEntry) (n : String)
    (h : loadSourceCommon ext src fsys ts = Except.ok ts')
    (hf : f ∈ fsys)
    (hkind : isLayoutGlobMatch ext f.path = true ∨
      (underDir PartialsDir f.path = true ∧ goExt f.path = ext))
    (hn : n ∈ f.defines) : n ∈ keysOf ts' := by
  simp only [loadSourceCommon] at h
  cases hg : parseGlobLayouts ext src fsys ts with
  | error e => rw [hg] at h; cases h
  | ok ts1 =>
    rw [hg] at h
    rcases hkind with hlay | ⟨hpart, hext⟩
    · have h1 : n ∈ keysOf ts1 := parseGlobLayouts_adds ext src fsys ts ts1 f n hg hf hlay hn
      cases hd : hasDirB fsys PartialsDir with
      | false => simp only [hd, if_false] at h; cases h; exact h1
      | true =>
        simp only [hd, if_true] at h
        exact parseFilesInto_mono src _ ts1 ts' n h h1
    · have hd : hasDirB fsys PartialsDir = true := by
        simp only [hasDirB, List.any_eq_true]
        exact ⟨f, hf, hpart⟩
      simp only [hd, if_true] at h
      have hfm : f ∈ (walkFiles fsys PartialsDir).filter (fun g => goExt g.path = ext) := by
        refine List.mem_filter.mpr ⟨List.mem_filter.mpr ⟨hf, hpart⟩, ?_⟩
        simp [hext]
      exact parseFilesInto_adds src _ ts1 ts' f n h hfm hn

/-- Loading the sources never removes a name. -/
theorem loadSources_mono (ext : String) :
    ∀ (sources : List (String × SourceFS)) (ts ts' : TemplateSet) (n : String),
      loadSources ext sources ts = Except.ok ts' →
      n ∈ keysOf ts → n ∈ keysOf ts' := by
  intro sources
  induction sources with
  | nil =>
    intro ts ts' n h hn
    simp only [loadSources] at h
    cases h
    exact hn
  | cons p rest ih =>
    obtain ⟨s0, fs0⟩ := p
    intro ts ts' n h hn
    simp only [loadSources] at h
    cases hs : loadSourceCommon ext s0 fs0 ts with
    | error e => rw [hs] at h; cases h
    | ok ts1 =>
      rw [hs] at h
      exact ih ts1 ts' n h (loadSourceCommon_mono ext s0 fs0 ts ts1 n hs hn)

/-- After a successful `loadLayoutsAndPartials`, the common template set
holds a definition for every name defined by any layout file or
matching-extension partial file of any source. -/
theorem loadSources_adds (ext : String) :
    ∀ (sources : List (String × SourceFS)) (ts common : TemplateSet)
      (src : String) (fsys : SourceFS) (f : FileEntry) (n : String),
      loadSources ext sources ts = Except.ok common →
      (src, fsys) ∈ sources → f ∈ fsys →
      (isLayoutGlobMatch ext f.path = true ∨
        (underDir PartialsDir f.path = true ∧ goExt f.path = ext)) →
      n ∈ f.defines → n ∈ keysOf common := by
  intro sources
  induction sources with
  | nil => intro ts common src fsys f n _ hs; cases hs
  | cons p rest ih =>
    obtain ⟨s0, fs0⟩ := p
    intro ts common src fsys f n h hs hf hkind hn
    simp only [loadSources] at h
    cases hhead : loadSourceCommon ext s0 fs0 ts with
    | error e => rw [hhead] at h; cases h
    | ok ts1 =>
      rw [hhead] at h
      rcases List.mem_cons.mp hs with he | hm
      · have hp1 : s0 = src := (congrArg Prod.fst he).symm
        have hp2 : fs0 = fsys := (congrArg Prod.snd he).symm
        rw [hp1, hp2] at hhead
        have h1 : n ∈ keysOf ts1 :=
          loadSourceCommon_adds ext src fsys ts ts1 f n hhead hf hkind hn
        exact loadSources_mono ext rest ts1 common n h h1
      · exact ih ts1 common src fsys f n h hm hf hkind hn

/-! ### Catalog-construction lemmas -/

/-- The views walk never removes a catalog key, whether or not it
aborts. -/
theorem initViews_mono (ext : String) (common : TemplateSet) (src : String) :
    ∀ (files : List FileEntry) (cat : Catalog) (k : String),
      k ∈ keysOf cat → k ∈ keysOf (initViews ext common src files cat).1 := by
  intro files
  induction files with
  | nil => intro cat k hk; simpa [initViews] using hk
  | cons f rest ih =>
    intro cat k hk
    by_cases he : goExt f.path = ext
    · simp only [initViews, if_pos he]
      cases hp : parseFileInto common src f with
      | error e => exact hk
      | ok tmpl =>
        exact ih _ k ((mem_keysOf_setKey cat (pageName src f.path) tmpl k).mpr (Or.inr hk))
    · simp only [initViews, if_neg he]
      exact ih cat k hk

/-- A completed views walk creates a catalog key for every file with the
configured extension. -/
theorem initViews_adds (ext : String) (common : TemplateSet) (src : String) :
    ∀ (files : List FileEntry) (cat : Catalog) (f : FileEntry),
      f ∈ files → goExt f.path = ext →
      (initViews ext common src files cat).2 = none →
      pageName src f.path ∈ keysOf (initViews ext common src files cat).1 := by
  intro files
  induction files with
  | nil => intro cat f hf; cases hf
  | cons g rest ih =>
    intro cat f hf hext hnone
    rcases List.mem_cons.mp hf with he | hm
    · subst he
      simp only [initViews, if_pos hext] at hnone ⊢
      cases hp : parseFileInto common src f with
      | error e => rw [hp] at hnone; simp at hnone
      | ok tmpl =>
        exact initViews_mono ext common src rest _ _
          ((mem_keysOf_setKey cat (pageName src f.path) tmpl _).mpr (Or.inl rfl))
    · by_cases hg : goExt g.path = ext
      · simp only [initViews, if_pos hg] at hnone ⊢
        cases hp : parseFileInto common src g with
        | error e => rw [hp] at hnone; simp at hnone
        | ok tmpl =>
          rw [hp] at hnone
          exact ih _ f hm hext hnone
      · simp only [initViews, if_neg hg] at hnone ⊢
        exact ih cat f hm hext hnone

/-- Every catalog binding after a views walk is an old binding or the
clone-and-parse of one of the walked files. -/
theorem initViews_entries (ext : String) (common : TemplateSet) (src : String) :
    ∀ (files : List FileEntry) (cat : Catalog) (e : String × TemplateSet),
      e ∈ (initViews ext common src files cat).1 →
      e ∈ cat ∨ ∃ f, f ∈ files ∧ goExt f.path = ext ∧ f.parseOk = true ∧
        e = (pageName src f.path, applyDefines common src f) := by
  intro files
  induction files with
  | nil =>
    intro cat e h
    exact Or.inl (by simpa [initViews] using h)
  | cons g rest ih =>
    intro cat e h
    by_cases hg : goExt g.path = ext
    · simp only [initViews, if_pos hg] at h
      cases hp : parseFileInto common src g with
      | error er =>
        rw [hp] at h
        exact Or.inl h
      | ok tmpl =>
        rw [hp] at h
        rcases ih _ e h with hin | ⟨f, hf, h1, h2, h3⟩
        · rcases mem_setKey_elim cat (pageName src g.path) tmpl e hin with he | hold
          · have hok : g.parseOk = true ∧ tmpl = applyDefines common src g := by
              simp only [parseFileInto] at hp
              cases hq : g.parseOk with
              | false => rw [hq] at hp; simp at hp
              | true => rw [hq] at hp; simp at hp; exact ⟨rfl, hp.symm⟩
            refine Or.inr ⟨g, List.mem_cons_self _ _, hg, hok.1, ?_⟩
            rw [he, hok.2]
          · exact Or.inl hold
        · exact Or.inr ⟨f, List.mem_cons_of_mem _ hf, h1, h2, h3⟩
    · simp only [initViews, if_neg hg] at h
      rcases ih cat e h with hin | ⟨f, hf, h1, h2, h3⟩
      · exact Or.inl hin
      · exact Or.inr ⟨f, List.mem_cons_of_mem _ hf, h1, h2, h3⟩

/-- The views walk preserves distinctness of the catalog keys. -/
theorem initViews_nodup (ext : String) (common : TemplateSet) (src : String) :
    ∀ (files : List FileEntry) (cat : Catalog),
      (keysOf cat).Nodup → (keysOf (initViews ext common src files cat).1).Nodup := by
  intro files
  induction files with
  | nil => intro cat h; simpa [initViews] using h
  | cons f rest ih =>
    intro cat h
    by_cases he : goExt f.path = ext
    · simp only [initViews, if_pos he]
      cases hp : parseFileInto common src f with
      | error e => exact h
      | ok tmpl => exact ih _ (keysOf_setKey_nodup cat (pageName src f.path) tmpl h)
    · simp only [initViews, if_neg he]
      exact ih cat h

/-- The source loop never removes a catalog key. -/
theorem initSources_mono (ext : String) (common : TemplateSet) :
    ∀ (sources : List (String × SourceFS)) (cat : Catalog) (k : String),
      k ∈ keysOf cat → k ∈ keysOf (initSources ext common sources cat).1 := by
  intro sources
  induction sources with
  | nil => intro cat k hk; simpa [initSources] using hk
  | cons p rest ih =>
    obtain ⟨s0, fs0⟩ := p
    intro cat k hk
    have hk' : k ∈ keysOf (initViews ext common s0 (walkFiles fs0 ViewsDir) cat).1 :=
      initViews_mono ext common s0 _ cat k hk
    by_cases hd : hasDirB fs0 ViewsDir = true
    · simp only [initSources, if_pos hd]
      cases hv : (initViews ext common s0 (walkFiles fs0 ViewsDir) cat).2 with
      | some e => exact hk'
      | none => exact ih _ k hk'
    · simp only [initSources, if_neg hd]
      exact ih cat k hk

/-- A completed source loop creates a catalog key for every
matching-extension file under any source's views directory. -/
theorem initSources_adds (ext : String) (common : TemplateSet) :
    ∀ (sources : List (String × SourceFS)) (cat : Catalog)
      (src : String) (fsys : SourceFS) (f : FileEntry),
      (src, fsys) ∈ sources → f ∈ fsys →
      underDir ViewsDir f.path = true → goExt f.path = ext →
      (initSources ext common sources cat).2 = none →
      pageName src f.path ∈ keysOf (initSources ext common sources cat).1 := by
  intro sources
  induction sources with
  | nil => intro cat src fsys f hs; cases hs
  | cons p rest ih =>
    obtain ⟨s0, fs0⟩ := p
    intro cat src fsys f hs hf hview hext hnone
    rcases List.mem_cons.mp hs with he | hm
    · have hp1 : s0 = src := (congrArg Prod.fst he).symm
      have hp2 : fs0 = fsys := (congrArg Prod.snd he).symm
      subst hp1; subst hp2
      have hd : hasDirB fs0 ViewsDir = true := by
        simp only [hasDirB, List.any_eq_true]
        exact ⟨f, hf, hview⟩
      simp only [initSources, if_pos hd] at hnone ⊢
      cases hv : (initViews ext common s0 (walkFiles fs0 ViewsDir) cat).2 with
      | some e => rw [hv] at hnone; simp at hnone
      | none =>
        rw [hv] at hnone
        have hfw : f ∈ walkFiles fs0 ViewsDir :=
          List.mem_filter.mpr ⟨hf, hview⟩
        have hkey : pageName s0 f.path ∈
            keysOf (initViews ext common s0 (walkFiles fs0 ViewsDir) cat).1 :=
          initViews_adds ext common s0 (walkFiles fs0 ViewsDir) cat f hfw hext hv
        exact initSources_mono ext common rest _ _ hkey
    · by_cases hd : hasDirB fs0 ViewsDir = true
      · simp only [initSources, if_pos hd] at hnone ⊢
        cases hv : (initViews ext common s0 (walkFiles fs0 ViewsDir) cat).2 with
        | some e => rw [hv] at hnone; simp at hnone
        | none =>
          rw [hv] at hnone
          exact ih _ src fsys f hm hf hview hext hnone
      · simp only [initSources, if_neg hd] at hnone ⊢
        exact ih cat src fsys f hm hf hview hext hnone

/-- Every catalog binding after the source loop is an old binding or the
clone-and-parse of a matching views file of one of the sources. -/
theorem initSources_entries (ext : String) (common : TemplateSet) :
    ∀ (sources : List (String × SourceFS)) (cat : Catalog) (e : String × TemplateSet),
      e ∈ (initSources ext common sources cat).1 →
      e ∈ cat ∨ ∃ src fsys f, (src, fsys) ∈ sources ∧ f ∈ fsys ∧
        underDir ViewsDir f.path = true ∧ goExt f.path = ext ∧ f.parseOk = true ∧
        e = (pageName src f.path, applyDefines common src f) := by
  intro sources
  induction sources with
  | nil =>
    intro cat e h
    exact Or.inl (by simpa [initSources] using h)
  | cons p rest ih =>
    obtain ⟨s0, fs0⟩ := p
    intro cat e h
    have hstep : e ∈ (initViews ext common s0 (walkFiles fs0 ViewsDir) cat).1 →
        e ∈ cat ∨ ∃ src fsys f, (src, fsys) ∈ (s0, fs0) :: rest ∧ f ∈ fsys ∧
          underDir ViewsDir f.path = true ∧ goExt f.path = ext ∧ f.parseOk = true ∧
          e = (pageName src f.path, applyDefines common src f) := by
      intro hin
      rcases initViews_entries ext common s0 _ cat e hin with hold | ⟨f, hfw, h1, h2, h3⟩
      · exact Or.inl hold
      · rcases List.mem_filter.mp hfw with ⟨hf, hview⟩
        exact Or.inr ⟨s0, fs0, f, List.mem_cons_self _ _, hf, hview, h1, h2, h3⟩
    by_cases hd : hasDirB fs0 ViewsDir = true
    · simp only [initSources, if_pos hd] at h
      cases hv : (initViews ext common s0 (walkFiles fs0 ViewsDir) cat).2 with
      | some er =>
        rw [hv] at h
        exact hstep (by simpa using h)
      | none =>
        rw [hv] at h
        rcases ih _ e h with hin | ⟨src, fsys, f, hsrest, rest'⟩
        · exact hstep hin
        · exact Or.inr ⟨src, fsys, f, List.mem_cons_of_mem _ hsrest, rest'⟩
    · simp only [initSources, if_neg hd] at h
      rcases ih cat e h with hin | ⟨src, fsys, f, hsrest, rest'⟩
      · exact Or.inl hin
      · exact Or.inr ⟨src, fsys, f, List.mem_cons_of_mem _ hsrest, rest'⟩

/-- The source loop preserves distinctness of the catalog keys. -/
theorem initSources_nodup (ext : String) (common : TemplateSet) :
    ∀ (sources : List (String × SourceFS)) (cat : Catalog),
      (keysOf cat).Nodup → (keysOf (initSources ext common sources cat).1).Nodup := by
  intro sources
  induction sources with
  | nil => intro cat h; simpa [initSources] using h
  | cons p rest ih =>
    obtain ⟨s0, fs0⟩ := p
    intro cat h
    have h' : (keysOf (initViews ext common s0 (walkFiles fs0 ViewsDir) cat).1).Nodup :=
      initViews_nodup ext common s0 _ cat h
    by_cases hd : hasDirB fs0 ViewsDir = true
    · simp only [initSources, if_pos hd]
      cases hv : (initViews ext common s0 (walkFiles fs0 ViewsDir) cat).2 with
      | some e => exact h'
      | none => exact ih _ h'
    · simp only [initSources, if_neg hd]
      exact ih cat h

/-- Unfolding of `Init` when loading the layouts and partials succeeds. -/
theorem Init_eq_ok (tm : TemplateManager) (common : TemplateSet)
    (h : loadLayoutsAndPartials tm = Except.ok common) :
    Init tm =
      ({ tm with templates := (initSources tm.extension common tm.fileSystemMap []).1 },
        (initSources tm.extension common tm.fileSystemMap []).2) := by
  have h' : loadLayoutsAndPartials { tm with templates := [] } = Except.ok common := h
  simp only [Init, h']

/-- Unfolding of `Init` when loading the layouts and partials fails: the
template map has been reset to empty and the error is surfaced. -/
theorem Init_eq_err (tm : TemplateManager) (e : String)
    (h : loadLayoutsAndPartials tm = Except.error e) :
    Init tm = ({ tm with templates := [] }, some ("error loading partials. " ++ e)) := by
  have h' : loadLayoutsAndPartials { tm with templates := [] } = Except.error e := h
  simp only [Init, h']

/-! ### String-shape lemmas for page names -/

/-- A successful prefix drop decomposes the list. -/
theorem dropPrefixCh_some :
    ∀ (p l r : List Char), dropPrefixCh p l = some r → l = p ++ r := by
  intro p
  induction p with
  | nil =>
    intro l r h
    simp only [dropPrefixCh] at h
    cases h
    rfl
  | cons c cs ih =>
    intro l r h
    cases l with
    | nil => simp [dropPrefixCh] at h
    | cons x xs =>
      simp only [dropPrefixCh] at h
      by_cases he : c = x
      · rw [if_pos he] at h
        rw [← he]
        simpa using ih xs r h
      · rw [if_neg he] at h
        cases h

/-- A string prefix decomposes the character data. -/
theorem strHasPrefix_decomp (pre s : String) (h : strHasPrefix pre s = true) :
    ∃ r, s.data = pre.data ++ r := by
  simp only [strHasPrefix, Option.isSome_iff_exists] at h
  rcases h with ⟨r, hr⟩
  exact ⟨r, dropPrefixCh_some pre.data s.data r hr⟩

/-- A suffix decomposes the character list. -/
theorem chIsSuffix_decomp (suf l : List Char) (h : chIsSuffix suf l = true) :
    ∃ t, l = t ++ suf := by
  simp only [chIsSuffix, Option.isSome_iff_exists] at h
  rcases h with ⟨r, hr⟩
  have hrev : l.reverse = suf.reverse ++ r := dropPrefixCh_some suf.reverse l.reverse r hr
  refine ⟨r.reverse, ?_⟩
  have := congrArg List.reverse hrev
  simpa using this

/-- The extension scan never emits a path separator. -/
theorem extLoop_no_slash :
    ∀ (l acc : List Char), '/' ∉ acc → '/' ∉ extLoop l acc := by
  intro l
  induction l with
  | nil => intro acc _; simp [extLoop]
  | cons c rest ih =>
    intro acc hacc
    simp only [extLoop]
    by_cases hs : c = '/'
    · simp [hs]
    · rw [if_neg hs]
      by_cases hd : c = '.'
      · rw [if_pos hd]
        subst hd
        intro hmem
        rcases List.mem_cons.mp hmem with he | hm
        · exact absurd he (by decide)
        · exact hacc hm
      · rw [if_neg hd]
        refine ih (c :: acc) ?_
        intro hmem
        rcases List.mem_cons.mp hmem with he | hm
        · exact hs he.symm
        · exact hacc hm

/-- Go `filepath.Ext` never contains a path separator. -/
theorem goExt_no_slash (s : String) : '/' ∉ (goExt s).data :=
  extLoop_no_slash s.data.reverse [] (by simp)

/-- If the tail of one decomposition is at most as long as the suffix of
another decomposition of the same list, the suffix absorbs the tail. -/
theorem suffix_absorbs {t s pre r : List Char}
    (h : t ++ s = pre ++ r) (hlen : r.length ≤ s.length) :
    ∃ w, pre = t ++ w ∧ s = w ++ r := by
  have hs : s <:+ pre ++ r := ⟨t, h⟩
  have hr : r <:+ pre ++ r := ⟨pre, rfl⟩
  rcases List.suffix_or_suffix_of_suffix hr hs with hrs | hsr
  · rcases hrs with ⟨w, hw⟩
    refine ⟨w, ?_, hw.symm⟩
    have : t ++ (w ++ r) = pre ++ r := by rw [hw]; exact h
    rw [← List.append_assoc] at this
    exact (List.append_cancel_right this).symm
  · have h1 : s.length ≤ r.length := hsr.length_le
    have h2 : s.length = r.length := Nat.le_antisymm h1 hlen
    rcases hsr with ⟨w, hw⟩
    have hwnil : w = [] := by
      have hlw := congrArg List.length hw
      simp at hlw
      have hz : w.length = 0 := by omega
      exact List.eq_nil_of_length_eq_zero hz
    have hrs : r = s := by rw [← hw, hwnil]; simp
    have ht : t = pre := List.append_cancel_right (show t ++ s = pre ++ s by rw [h, hrs])
    exact ⟨[], by simp [ht], by simp [hrs]⟩

/-- A nonempty list decomposes off its last element. -/
theorem exists_concat_of_ne_nil {l : List Char} (h : l ≠ []) :
    ∃ L b, l = L ++ [b] := by
  rcases List.eq_nil_or_concat l with h' | ⟨L, b, h'⟩
  · exact absurd h' h
  · exact ⟨L, b, by rw [h', List.concat_eq_append]⟩

/-- The page stem of a file under the views directory keeps the
`views/` prefix: the trimmed extension contains no separator, so the
trim cannot reach into the directory part. -/
theorem pageStem_keeps_views_dir (q : String) (hq : underDir ViewsDir q = true) :
    ∃ r : List Char, (pageStem q).data = ('v' :: 'i' :: 'e' :: 'w' :: 's' :: '/' :: r) := by
  have hpre : ∃ r0, q.data = ('v' :: 'i' :: 'e' :: 'w' :: 's' :: '/' :: []) ++ r0 := by
    have := strHasPrefix_decomp (ViewsDir ++ "/") q hq
    simpa using this
  rcases hpre with ⟨r0, hr0⟩
  simp only [pageStem, trimSuffix]
  by_cases hsuf : chIsSuffix (goExt q).data q.data = true
  · rw [if_pos hsuf]
    rcases chIsSuffix_decomp (goExt q).data q.data hsuf with ⟨t, ht⟩
    have hslash : '/' ∉ (goExt q).data := goExt_no_slash q
    have hle : (goExt q).data.length ≤ r0.length := by
      by_contra hgt
      push_neg at hgt
      rcases suffix_absorbs (ht.symm.trans hr0) (Nat.le_of_lt hgt) with ⟨w, hw1, hw2⟩
      have hwne : w ≠ [] := by
        intro hnil
        rw [hnil] at hw2
        simp at hw2
        rw [hw2] at hgt
        exact Nat.lt_irrefl _ hgt
      rcases exists_concat_of_ne_nil hwne with ⟨W, b, hWb⟩
      have hb : b = '/' := by
        rw [hWb, ← List.append_assoc] at hw1
        have hw1' : (t ++ W) ++ [b] = ['v', 'i', 'e', 'w', 's'] ++ ['/'] := hw1.symm
        have hinj := List.append_inj' hw1' (by simp)
        simpa using hinj.2
      apply hslash
      rw [hw2, hWb, hb]
      simp
    have hlen : q.data.length = 6 + r0.length := by
      rw [hr0]; simp; omega
    have hn : 6 + r0.length - (goExt q).data.length =
        6 + (r0.length - (goExt q).data.length) := by omega
    refine ⟨r0.take (r0.length - (goExt q).data.length), ?_⟩
    show (q.data.take (q.data.length - (goExt q).data.length)) = _
    rw [hlen, hr0, hn, List.take_append_eq_append_take,
      List.take_of_length_le
        (by simp : ('v' :: 'i' :: 'e' :: 'w' :: 's' :: '/' :: ([] : List Char)).length ≤
          6 + (r0.length - (goExt q).data.length))]
    simp
  · rw [if_neg hsuf]
    exact ⟨r0, by simpa using hr0⟩

/-- Two decompositions of one list around distinguished elements, each
absent from the other's front part, force the elements to coincide. -/
theorem append_single_eq {α : Type} :
    ∀ (l1 l2 r1 r2 : List α) (c d : α),
      l1 ++ c :: r1 = l2 ++ d :: r2 → c ∉ l2 → d ∉ l1 → c = d := by
  intro l1
  induction l1 with
  | nil =>
    intro l2 r1 r2 c d h hc _
    cases l2 with
    | nil => exact (List.cons.injEq _ _ _ _ ▸ h).1
    | cons x xs =>
      have hcx : c = x := (by simpa using h : c = x ∧ _).1
      exact absurd (hcx ▸ List.mem_cons_self x xs) hc
  | cons a l1 ih =>
    intro l2 r1 r2 c d h hc hd
    cases l2 with
    | nil =>
      have hda : a = d := (by simpa using h : a = d ∧ _).1
      exact absurd (hda ▸ List.mem_cons_self a l1) hd
    | cons x xs =>
      have hax : a = x ∧ l1 ++ c :: r1 = xs ++ d :: r2 := by simpa using h
      exact ih xs r1 r2 c d hax.2
        (fun hm => hc (List.mem_cons_of_mem x hm))
        (fun hm => hd (List.mem_cons_of_mem a hm))

/-! ### Claim theorems -/

/-- Claim C1, counterexample.  The claim states that catalog keys are the
file's path relative to the source's views root with the extension
stripped, so that `views/home.ext` in the root source yields key
`"home"`.  On the code, `filepath.Rel("", path)` returns the walk path
unchanged, so the successful build of the scenario source produces no
key `"home"`; the entry is keyed `"views/home"` instead. -/
theorem c1_counterexample :
    (Init tmC1).2 = none ∧
    lookupKey (Init tmC1).1.templates "home" = none ∧
    (lookupKey (Init tmC1).1.templates "views/home").isSome = true := by
  decide

/-- Claim C1, as amended.  For every source and every file under the
source's views directory whose `filepath.Ext` equals the configured
extension, a successful `Init` creates exactly one catalog entry (the
catalog keys are distinct) whose key is the file's full path within the
source — retaining the `views/` directory prefix — with the extension
stripped, and prefixed `sourceName:` for non-sentinel sources; in
particular, `views/home.ext` in the root source `"-"` yields the key
`"views/home"`. -/
theorem c1_amended_page_keys (tm : TemplateManager) (h : (Init tm).2 = none) :
    (∀ src fsys f, (src, fsys) ∈ tm.fileSystemMap → f ∈ fsys →
      underDir ViewsDir f.path = true → goExt f.path = tm.extension →
      pageName src f.path ∈ keysOf (Init tm).1.templates) ∧
    (keysOf (Init tm).1.templates).Nodup ∧
    pageName "-" "views/home.ext" = "views/home" := by
  cases hload : loadLayoutsAndPartials tm with
  | error e =>
    rw [Init_eq_err tm e hload] at h
    cases h
  | ok common =>
    rw [Init_eq_ok tm common hload] at h ⊢
    refine ⟨?_, ?_, by decide⟩
    · intro src fsys f hs hf hv hx
      exact initSources_adds tm.extension common tm.fileSystemMap [] src fsys f
        hs hf hv hx h
    · exact initSources_nodup tm.extension common tm.fileSystemMap [] (by simp [keysOf])

/-- Claim C1, witness for the amended theorem at the scenario input. -/
theorem c1_amended_witness :
    pageName "-" "views/home.ext" ∈ keysOf (Init tmC1).1.templates :=
  (c1_amended_page_keys tmC1 (by decide)).1 "-" fsC1 homeFile
    (by decide) (by decide) (by decide) (by decide)

/-- Claim C2, counterexample.  The claim states that after a failed
`Init` the manager's template map is the catalog of the last fully
successful build, or empty if no build ever succeeded.  On the code,
`Init` resets the map in place and fills it during the walk: for the
manager `tmC2` (never successfully built, so the claim requires an empty
map) the failing build leaves the already-parsed page `views/a` installed. -/
theorem c2_counterexample :
    (Init tmC2).2.isSome = true ∧ tmC2.templates = [] ∧
    (Init tmC2).1.templates ≠ [] := by
  decide

/-- Claim C2, as amended.  `Init` discards the previous catalog
unconditionally (the result never depends on the old template map), and
a failure while loading layouts and partials surfaces the error with the
template map already reset to empty; a failure during the page walk
leaves exactly the entries parsed before the failure (no atomic swap). -/
theorem c2_amended_reset (tm : TemplateManager) (cat : Catalog) :
    Init { tm with templates := cat } = Init { tm with templates := [] } ∧
    (∀ e, loadLayoutsAndPartials tm = Except.error e →
      (Init tm).1.templates = [] ∧
      (Init tm).2 = some ("error loading partials. " ++ e)) := by
  constructor
  · obtain ⟨b, s, x, fsm, tpl⟩ := tm
    rfl
  · intro e he
    rw [Init_eq_err tm e he]
    exact ⟨rfl, rfl⟩

/-- Claim C2, witness for the amended theorem: the old catalog is
discarded, and the manager with no matching layout files ends a failed
build with an empty map and the surfaced glob error. -/
theorem c2_amended_witness :
    Init { tmNoLayouts with templates := [("old", [])] } =
      Init { tmNoLayouts with templates := [] } ∧
    (Init tmNoLayouts).1.templates = [] ∧
    (Init tmNoLayouts).2 =
      some ("error loading partials. template: pattern matches no files: layouts/*.ext") := by
  have h := c2_amended_reset tmNoLayouts [("old", [])]
  have h2 := h.2 "template: pattern matches no files: layouts/*.ext" (by rfl)
  exact ⟨h.1, h2.1, h2.2⟩

/-- Claim C3.  After a successful build, every catalog entry contains a
definition for every name defined by any source's layout files and
matching-extension partial files, and the entry is exactly the clone of
the shared common set extended by its own page file's definitions: its
defined names are the common names together with the page's names (so a
page defining a single fresh name contributes exactly one page-specific
definition), and the entry is a function of the common set and its own
file alone, so parsing one page touches neither the shared common set
nor any other page's entry. -/
theorem c3_bundle_contents (tm : TemplateManager) (common : TemplateSet)
    (hload : loadLayoutsAndPartials tm = Except.ok common)
    (_hok : (Init tm).2 = none) :
    ∀ k ts, (k, ts) ∈ (Init tm).1.templates →
      (∀ src fsys f n, (src, fsys) ∈ tm.fileSystemMap → f ∈ fsys →
          (isLayoutGlobMatch tm.extension f.path = true ∨
            (underDir PartialsDir f.path = true ∧ goExt f.path = tm.extension)) →
          n ∈ f.defines → n ∈ keysOf ts) ∧
      ∃ src fsys f, (src, fsys) ∈ tm.fileSystemMap ∧ f ∈ fsys ∧
        underDir ViewsDir f.path = true ∧ goExt f.path = tm.extension ∧
        f.parseOk = true ∧ k = pageName src f.path ∧
        ts = applyDefines common src f ∧
        (∀ n, n ∈ keysOf ts ↔ n ∈ keysOf common ∨ n ∈ f.defines) := by
  intro k ts hmem
  rw [Init_eq_ok tm common hload] at hmem
  have hent := initSources_entries tm.extension common tm.fileSystemMap [] (k, ts) hmem
  rcases hent with hnil | ⟨src, fsys, f, hs, hf, hview, hx, hpok, heq⟩
  · cases hnil
  · have hk : k = pageName src f.path := congrArg Prod.fst heq
    have hts : ts = applyDefines common src f := congrArg Prod.snd heq
    constructor
    · intro src' fsys' f' n hs' hf' hkind hn
      rw [hts]
      exact (mem_keysOf_applyDefines common src f n).mpr
        (Or.inr (loadSources_adds tm.extension tm.fileSystemMap [] common
          src' fsys' f' n hload hs' hf' hkind hn))
    · refine ⟨src, fsys, f, hs, hf, hview, hx, hpok, hk, hts, ?_⟩
      intro n
      rw [hts]
      exact (mem_keysOf_applyDefines common src f n).trans or_comm

/-- Claim C3, witness: in the built catalog of the layout/partial/page
source, the `views/home` entry exists and contains the shared layout
definition `layout:base`. -/
theorem c3_bundle_contents_witness :
    ("views/home", applyDefines commonC3 "-" homeFile) ∈ (Init tmC3).1.templates ∧
    "layout:base" ∈ keysOf (applyDefines commonC3 "-" homeFile) := by
  refine ⟨by decide, ?_⟩
  exact ((c3_bundle_contents tmC3 commonC3 (by rfl) (by decide)) "views/home"
      (applyDefines commonC3 "-" homeFile) (by decide)).1 "-" fsC3 layoutBaseFile
      "layout:base" (by decide) (by decide) (Or.inl (by decide)) (by decide)

/-- Claim C4, counterexample.  The claim states that no prefixed
non-root page name ever equals a root-source page name referring to a
different file.  Source names are arbitrary strings: the source named
`views/a` containing `views/x.ext` and the root source containing the
file `views/a:views/x.ext` derive the same page name
`views/a:views/x` for two different files, and the successful build
collapses both into a single catalog entry. -/
theorem c4_counterexample :
    pageName "views/a" "views/x.ext" = pageName "-" "views/a:views/x.ext" ∧
    ("views/x.ext" : String) ≠ "views/a:views/x.ext" ∧
    (Init tmColl).2 = none ∧
    (keysOf (Init tmColl).1.templates).count "views/a:views/x" = 1 := by
  decide

/-- Claim C4, as amended.  For every source whose name is neither `""`
nor `"-"` (the two sentinels the code treats as root), every derived
page name is the source name, a colon, then the page stem; and provided
the source name contains no path separator `/`, such a prefixed name
never equals the page name the root source derives for any file under
its views directory (root names always begin with `views/`). -/
theorem c4_amended_prefixing (src p q : String)
    (h1 : src ≠ "") (h2 : src ≠ "-") (h3 : '/' ∉ src.data)
    (hq : underDir ViewsDir q = true) :
    pageName src p = src ++ ":" ++ pageStem p ∧
    pageName src p ≠ pageName "-" q := by
  have hpn : pageName src p = src ++ ":" ++ pageStem p := by
    simp [pageName, h1, h2]
  have hroot : pageName "-" q = pageStem q := by
    simp [pageName]
  refine ⟨hpn, ?_⟩
  intro heq
  rw [hpn, hroot] at heq
  rcases pageStem_keeps_views_dir q hq with ⟨r, hr⟩
  have hdata := congrArg String.data heq
  rw [String.data_append, String.data_append, hr] at hdata
  rw [List.append_assoc] at hdata
  have hfinal : src.data ++ ':' :: (pageStem p).data =
      ['v', 'i', 'e', 'w', 's'] ++ '/' :: r := hdata
  have hcd : (':' : Char) = '/' :=
    append_single_eq src.data ['v', 'i', 'e', 'w', 's'] (pageStem p).data r ':' '/'
      hfinal (by decide) h3
  exact absurd hcd (by decide)

/-- Claim C4, witness for the amended theorem: the `blog` source's
`views/index.ext` gets the prefixed name `blog:views/index`, distinct
from the root name of the same relative file. -/
theorem c4_amended_witness :
    pageName "blog" "views/index.ext" = "blog:views/index" ∧
    pageName "blog" "views/index.ext" ≠ pageName "-" "views/index.ext" := by
  have h := c4_amended_prefixing "blog" "views/index.ext" "views/index.ext"
    (by decide) (by decide) (by decide) (by decide)
  exact ⟨h.1.trans (by decide), h.2⟩

/-- Claim C5.  After a successful `loadLayoutsAndPartials`, every file
directly under a source's layouts directory matching the configured
extension has its definitions loaded into the common template set; in
particular, a layout file following the documented convention of
defining `layout:<filename-without-extension>` makes that name defined
in the common set, and `render`'s execution entry point for a response
selecting that layout is exactly that name. -/
theorem c5_layouts_loaded (tm : TemplateManager) (common : TemplateSet)
    (src : String) (fsys : SourceFS) (f : FileEntry)
    (hload : loadLayoutsAndPartials tm = Except.ok common)
    (hs : (src, fsys) ∈ tm.fileSystemMap) (hf : f ∈ fsys)
    (hmatch : isLayoutGlobMatch tm.extension f.path = true)
    (hconv : ("layout:" ++ baseStem f.path) ∈ f.defines) :
    ("layout:" ++ baseStem f.path) ∈ keysOf common ∧
    ∀ resp : Response, resp.templateLayout = baseStem f.path →
      execTargetName resp = "layout:" ++ baseStem f.path := by
  refine ⟨loadSources_adds tm.extension tm.fileSystemMap [] common src fsys f
    ("layout:" ++ baseStem f.path) hload hs hf (Or.inl hmatch) hconv, ?_⟩
  intro resp hl
  rw [execTargetName, hl]

/-- Claim C5, witness at the layout/partial/page source. -/
theorem c5_layouts_loaded_witness :
    ("layout:" ++ baseStem "layouts/base.ext") ∈ keysOf commonC3 ∧
    execTargetName respBase = "layout:" ++ baseStem "layouts/base.ext" := by
  have h := c5_layouts_loaded tmC3 commonC3 "-" fsC3 layoutBaseFile
    (by rfl) (by decide) (by decide) (by decide) (by decide)
  exact ⟨h.1, h.2 respBase (by decide)⟩

/-- Claim C6.  When the response's target page path is not a catalog
key, `render` emits exactly the `http.Error` response for the error
`"template not found: <path>"` — a 500 status and a body carrying the
error kind and the offending path — and nothing else: no silent empty
body and no template output. -/
theorem c6_not_found (exec : ExecOracle) (writeRes : Option String)
    (tm : TemplateManager) (resp : Response)
    (h : lookupKey tm.templates resp.templatePath = none) :
    render exec writeRes tm resp =
      httpErrorTrace ("template not found" ++ ": " ++ resp.templatePath) ∧
    SinkEvent.writeHeader 500 ∈ render exec writeRes tm resp ∧
    SinkEvent.write ("template not found" ++ ": " ++ resp.templatePath ++ "\n")
      ∈ render exec writeRes tm resp ∧
    render exec writeRes tm resp ≠ [] := by
  have hr : render exec writeRes tm resp =
      httpErrorTrace ("template not found" ++ ": " ++ resp.templatePath) := by
    simp [render, h]
  refine ⟨hr, ?_, ?_, ?_⟩ <;> rw [hr] <;> simp [httpErrorTrace]

/-- Claim C6, witness at a concrete missing page. -/
theorem c6_not_found_witness :
    render execOk none tmR respNF =
      httpErrorTrace ("template not found" ++ ": " ++ "nope") ∧
    render execOk none tmR respNF ≠ [] := by
  have h := c6_not_found execOk none tmR respNF (by decide)
  exact ⟨h.1, h.2.2.2⟩

/-- Claim C7.  When template execution fails, the sink receives only the
error response: none of the template's output, none of the response's
headers, and not the response's status code — the trace is the same for
every header map and status code the response carries.  When execution
succeeds and the final copy does not fail, the sink receives the
response's headers, then its status code, then the buffered body, in
that order. -/
theorem c7_buffered_commit (exec : ExecOracle) (writeRes : Option String)
    (tm : TemplateManager) (resp : Response) (tmpl : TemplateSet)
    (h : lookupKey tm.templates resp.templatePath = some tmpl) :
    (∀ e, exec tmpl (execTargetName resp) resp.data = Except.error e →
      render exec writeRes tm resp =
        httpErrorTrace ("error executing template: " ++ e) ∧
      ∀ hs sc, render exec writeRes tm { resp with headers := hs, statusCode := sc } =
        httpErrorTrace ("error executing template: " ++ e)) ∧
    (∀ body, exec tmpl (execTargetName resp) resp.data = Except.ok body →
      render exec none tm resp =
        (resp.headers.map fun kv => SinkEvent.setHeader kv.1 kv.2) ++
        [SinkEvent.writeHeader resp.statusCode] ++ [SinkEvent.write body]) := by
  obtain ⟨tp, tl, st, hd, dt⟩ := resp
  constructor
  · intro e he
    constructor
    · simp only [render, h, he]
      split <;> rfl
    · intro hs sc
      simp only [render, execTargetName] at h he ⊢
      simp only [h, he]
      split <;> rfl
  · intro body hb
    simp only [render, h, hb]

/-- Claim C7, witness: failing execution yields the bare error response;
successful execution commits header, status, body in order. -/
theorem c7_buffered_commit_witness :
    render execBad none tmR respR =
      httpErrorTrace ("error executing template: " ++ "boom") ∧
    render execOk none tmR respR =
      [SinkEvent.setHeader "X-Test" "1", SinkEvent.writeHeader 200,
        SinkEvent.write "BODY"] := by
  have h := c7_buffered_commit execBad none tmR respR [] (by decide)
  have h2 := c7_buffered_commit execOk none tmR respR [] (by decide)
  exact ⟨(h.1 "boom" (by rfl)).1, (h2.2 "BODY" (by rfl)).trans (by decide)⟩

/-- Claim C8.  A render whose target is the designated system error page
`views/system/server-error` and whose execution fails emits the
`http.Error` response carrying the raw underlying error text exactly
once — one status commit and one body write — with the fixed 500
status, and nothing further: no recursion through the page-rendering
path and no loop. -/
theorem c8_system_error_guard (exec : ExecOracle) (writeRes : Option String)
    (tm : TemplateManager) (resp : Response) (tmpl : TemplateSet) (e : String)
    (hpath : resp.templatePath = viewsPath [SystemDir, "server-error"])
    (h : lookupKey tm.templates resp.templatePath = some tmpl)
    (he : exec tmpl (execTargetName resp) resp.data = Except.error e) :
    render exec writeRes tm resp =
      httpErrorTrace ("error executing template: " ++ e) ∧
    (render exec writeRes tm resp).countP
      (fun ev => match ev with | SinkEvent.writeHeader _ => true | _ => false) = 1 ∧
    (render exec writeRes tm resp).countP
      (fun ev => match ev with | SinkEvent.write _ => true | _ => false) = 1 := by
  have hr : render exec writeRes tm resp =
      httpErrorTrace ("error executing template: " ++ e) := by
    simp only [render, h, he]
    rw [if_pos hpath]
  refine ⟨hr, ?_, ?_⟩ <;> rw [hr] <;> rfl

/-- Claim C8, witness at the concrete system error page. -/
theorem c8_system_error_guard_witness :
    render execBad none tmSys respSys =
      httpErrorTrace ("error executing template: " ++ "boom") ∧
    (render execBad none tmSys respSys).countP
      (fun ev => match ev with | SinkEvent.writeHeader _ => true | _ => false) = 1 := by
  have h := c8_system_error_guard execBad none tmSys respSys [] "boom"
    (by decide) (by decide) (by rfl)
  exact ⟨h.1, h.2.1⟩

/-- Claim C9, counterexample.  The claim states that when the final copy
of the buffered body fails, the write error is returned to the caller
and no further writes are attempted.  On the code, `render` returns
nothing and reacts to the failed copy by calling `http.Error` on the
same sink: at a concrete render whose body copy fails, the sink receives
further events after the failed copy. -/
theorem c9_counterexample :
    afterCopyFail (render execOk (some "broken pipe") tmR respR) ≠ [] ∧
    render execOk (some "broken pipe") tmR respR =
      [SinkEvent.setHeader "X-Test" "1", SinkEvent.writeHeader 200,
        SinkEvent.bodyCopyFailed] ++ httpErrorTrace "broken pipe" := by
  constructor
  · decide
  · rfl

/-- Claim C9, as amended.  When the final copy of the buffered body
fails, `render` does not return the error (it returns nothing); it
reacts by invoking `http.Error` on the sink once more, so the events
after the failed copy are exactly the error response carrying the write
error's text with status 500. -/
theorem c9_amended_final_copy (exec : ExecOracle) (werr : String)
    (tm : TemplateManager) (resp : Response) (tmpl : TemplateSet) (body : String)
    (h : lookupKey tm.templates resp.templatePath = some tmpl)
    (hb : exec tmpl (execTargetName resp) resp.data = Except.ok body) :
    render exec (some werr) tm resp =
      (resp.headers.map fun kv => SinkEvent.setHeader kv.1 kv.2) ++
      [SinkEvent.writeHeader resp.statusCode] ++
      (SinkEvent.bodyCopyFailed :: httpErrorTrace werr) := by
  simp only [render, h, hb]

/-- Claim C9, witness for the amended theorem. -/
theorem c9_amended_witness :
    render execOk (some "broken pipe") tmR respR =
      (respR.headers.map fun kv => SinkEvent.setHeader kv.1 kv.2) ++
      [SinkEvent.writeHeader respR.statusCode] ++
      (SinkEvent.bodyCopyFailed :: httpErrorTrace "broken pipe") :=
  c9_amended_final_copy execOk "broken pipe" tmR respR [] "BODY"
    (by decide) (by rfl)

/-- Claim C10.  `NewTemplateManager` is total for every option value:
the guarded byte index `opts.Extension[0]` is never evaluated out of
range (the empty extension is defaulted first), the returned manager
carries a fresh empty template map, and any render performed before
`Init` takes the not-found path for every oracle, write outcome and
response. -/
theorem c10_constructor_total (opts : TemplateManagerOptions) :
    ∃ tm, NewTemplateManager opts = some tm ∧ tm.templates = [] ∧
      ∀ (exec : ExecOracle) (writeRes : Option String) (resp : Response),
        render exec writeRes tm resp =
          httpErrorTrace ("template not found" ++ ": " ++ resp.templatePath) := by
  have hx : ∃ c rest,
      (if opts.extension = "" then ".html" else opts.extension).data = c :: rest := by
    by_cases he : opts.extension = ""
    · refine ⟨'.', ['h', 't', 'm', 'l'], ?_⟩
      rw [if_pos he]
    · rw [if_neg he]
      cases hd : opts.extension.data with
      | nil =>
        exact absurd (String.ext (by rw [hd]) : opts.extension = "") he
      | cons c rest => exact ⟨c, rest, rfl⟩
  rcases hx with ⟨c, rest, hcr⟩
  simp only [NewTemplateManager, stringIndex, hcr, List.get?_cons_zero]
  refine ⟨_, rfl, rfl, ?_⟩
  intro exec writeRes resp
  simp [render, lookupKey]

end Gtml
